import Mathlib

/-!
Verification model of the `rotour` motion planner and transmitter.

The Rust sources are embedded shallowly:

* `f32` values are modelled as exact rationals (`ℚ`).  Every angle the
  planner manipulates is an integer multiple of `PI / 2`, where `PI` below is
  the exact value of Rust's `f32` constant `std::f32::consts::PI`
  (`13176795 / 2^22`).  The planner guards every comparison with the
  tolerance `EPSILON = 1e-4`, which is several orders of magnitude larger
  than any `f32` rounding error the arithmetic can introduce on such
  values, so exact rational arithmetic yields the same control flow and the
  same emitted values as the floating-point program.  Decimal literals from
  the source (`0.35`, `6.562`, ...) are taken at their exact decimal value.
* `i32` casts (`as i32`) are modelled as truncation toward zero
  (`truncToInt`); the saturating behaviour at the `i32` range limits is not
  modelled (every tick count in the claims is far from the limits).
* fallible code returns an explicit outcome (`PlanOutcome`); a Rust panic
  (out-of-bounds index) is modelled by the distinguished outcome
  `PlanOutcome.panic`.
* the Rust literals `"inf"`, `"infinity"` and `"nan"` accepted by
  `str::parse::<f32>` have no rational counterpart and are not modelled by
  `parseF32`; no claim exercises them.
-/

set_option maxRecDepth 100000

namespace Rotour

/-- planner.rs: `const EPSILON: f32 = 1e-4;` -/
def EPSILON : ℚ := 1 / 10000

/-- The exact value of the `f32` constant `std::f32::consts::PI`. -/
def PI : ℚ := 13176795 / 4194304

/-- planner.rs: `const CM_PER_SQUARE: f32 = 50.0;` -/
def CM_PER_SQUARE : ℚ := 50

/-- config.rs: struct `Config` (tunable parameters read from the config
file).  planner.rs and connection.rs access the first proportional gain as
`config.kp_turn`; config.rs declares it as `kp_move` (the field was renamed
between snapshots); we use the name the planner uses. -/
structure Config where
  ticks_per_cm : ℚ
  kp_turn : ℚ
  kp_hold : ℚ
  kp_straight : ℚ
  kp_velocity : ℚ
  imu_weight : ℚ
  turn_accel_time : ℚ
  straight_accel_time : ℚ
  friction : ℚ
  dowel_off : ℚ
  reverse : Bool
  reverse_enc : Bool
  reverse_enc2 : Bool
deriving DecidableEq

/-- config.rs: the default `Config` written by `read_config` when no config
file exists. -/
def defaultConfig : Config where
  ticks_per_cm := 100
  kp_turn := 3
  kp_hold := 1 / 100
  kp_straight := 3
  kp_velocity := 3 / 1000000
  imu_weight := 1
  turn_accel_time := 2 / 5
  straight_accel_time := 7 / 20
  friction := 1 / 10
  dowel_off := 6562 / 1000
  reverse := false
  reverse_enc := false
  reverse_enc2 := false

/-- connection.rs: enum `CommandType`. -/
inductive CommandType
  | selfTest
  | transmit
  | turnMove
  | readConfig
deriving DecidableEq

/-- The value of `CommandType::… as u8` (the enum discriminant). -/
def CommandType.toU8 : CommandType → ℕ
  | .selfTest => 0
  | .transmit => 1
  | .turnMove => 2
  | .readConfig => 3

/-- connection.rs: `#[repr(C, packed)] struct Command`. -/
structure Command where
  command_type : ℕ
  turn : ℚ
  ticks : ℤ
  tw_off : ℚ
deriving DecidableEq

instance : Inhabited Command := ⟨⟨0, 0, 0, 0⟩⟩

/-- connection.rs: `#[repr(C, packed)] struct ConfigCommand` (twelve `f32`
fields, declaration order preserved). -/
structure ConfigCommand where
  kp_turn : ℚ
  kp_hold : ℚ
  kp_straight : ℚ
  kp_velocity : ℚ
  dowel_off : ℚ
  turn_accel_time : ℚ
  straight_accel_time : ℚ
  velocity : ℚ
  velocity_twoff : ℚ
  friction : ℚ
  time : ℚ
  vtime : ℚ
deriving DecidableEq

instance : Inhabited ConfigCommand := ⟨⟨0, 0, 0, 0, 0, 0, 0, 0, 0, 0, 0, 0⟩⟩

/-- planner.rs: enum `Token`. -/
inductive Token
  | up (v : ℚ)
  | down (v : ℚ)
  | left (v : ℚ)
  | right (v : ℚ)
deriving DecidableEq

/-- planner.rs: `Token::target_angle`. -/
def Token.target_angle : Token → ℚ
  | .up _ => PI / 2
  | .down _ => -(PI / 2)
  | .left _ => PI
  | .right _ => 0

/-- The magnitude carried by a token (the `match` at the top of
`plan_token` extracting `dy`/`dx`). -/
def Token.magnitude : Token → ℚ
  | .up v => v
  | .down v => v
  | .left v => v
  | .right v => v

/-- Rust `f32::round`: round half away from zero. -/
def rustRound (q : ℚ) : ℤ :=
  if 0 ≤ q then ⌊q + 1 / 2⌋ else -⌊-q + 1 / 2⌋

/-- Rust `as i32` on a float: truncation toward zero. -/
def truncToInt (q : ℚ) : ℤ :=
  if 0 ≤ q then ⌊q⌋ else ⌈q⌉

/-- planner.rs: `fn mod_floats(a, b) = a - (a / (b + 2.0 * EPSILON)).round() * b`. -/
def mod_floats (a b : ℚ) : ℚ :=
  a - (rustRound (a / (b + 2 * EPSILON)) : ℚ) * b

/-- plan_token's normalisation of `dang` into (−π−ε, π+ε] by a single
`± 2π` correction. -/
def normalizeDang (d : ℚ) : ℚ :=
  if d > PI + EPSILON then d - 2 * PI
  else if d < -PI - EPSILON then d + 2 * PI
  else d

/-- plan_token's `if dang.abs() < EPSILON { dang = 0.0 }`. -/
def zeroGuard (d : ℚ) : ℚ :=
  if |d| < EPSILON then 0 else d

/-- planner.rs: `fn plan_token(tok, &mut angle, config) -> Command`.  The
`&mut` heading is modelled by returning the pair (command, new heading). -/
def plan_token (tok : Token) (angle : ℚ) (config : Config) : Command × ℚ :=
  let dist := tok.magnitude
  let target_ang := tok.target_angle
  let dang := zeroGuard (mod_floats (normalizeDang (target_ang - angle)) PI)
  let angle' := angle + dang
  let dist' := if |(|angle' - target_ang|) - PI| < EPSILON then -dist else dist
  (⟨CommandType.turnMove.toU8, dang,
    truncToInt (dist' * config.ticks_per_cm * CM_PER_SQUARE), 0⟩, angle')

/-- planner.rs: the emission loop `for tok in tokens.iter() { commands.push(plan_token(tok, &mut angle, &config)) }`. -/
def planTokens (config : Config) : List Token → ℚ → List Command × ℚ
  | [], a => ([], a)
  | t :: ts, a =>
    let r := plan_token t a config
    let rest := planTokens config ts r.2
    (r.1 :: rest.1, rest.2)

/-- planner.rs: `tokens.last().unwrap().target_angle()` (0 when the list is
empty; the code only evaluates it on non-empty lists). -/
def lastTarget (toks : List Token) : ℚ :=
  ((toks.getLast?).map Token.target_angle).getD 0

/-- Index of the last command whose turn exceeds `EPSILON` in magnitude
(the reversed scan `commands.iter().enumerate().rev()` in the
end-heading correction). -/
def findLastTurnIdx : List Command → Option ℕ
  | [] => none
  | c :: rest =>
    match findLastTurnIdx rest with
    | some i => some (i + 1)
    | none => if |c.turn| > EPSILON then some 0 else none

/-- planner.rs: the "Fix ending angle" pass.  If the final heading differs
from the last token's target by more than `EPSILON`, the last command with a
non-zero turn absorbs the discrepancy (renormalised once into [−π, π]) and
every later token is re-planned starting from the last target angle; the
re-planned first command contributes only its `ticks`/`tw_off` (its turn is
the corrected one).  Returns (commands, final heading). -/
def correctPhase (config : Config) (tokens : List Token)
    (cmds0 : List Command) (angle0 : ℚ) : List Command × ℚ :=
  let ediff := lastTarget tokens - angle0
  if |ediff| > EPSILON then
    match findLastTurnIdx cmds0 with
    | none => (cmds0, angle0)
    | some i =>
      let ci := cmds0.getD i default
      let t1 := ci.turn + ediff
      let t2 := if t1 > PI then t1 - 2 * PI
                else if t1 < -PI then t1 + 2 * PI else t1
      match tokens.drop i with
      | [] => (cmds0, angle0)  -- unreachable: the index is < tokens.length
      | tj :: rest =>
        let r0 := plan_token tj (lastTarget tokens) config
        let rrest := planTokens config rest r0.2
        (cmds0.take i ++
          ⟨ci.command_type, t2, r0.1.ticks, r0.1.tw_off⟩ :: rrest.1, rrest.2)
  else (cmds0, angle0)

/-- The mutable state of the "Calculate tw_off, velocity" loop. -/
structure BState where
  cmds : List Command
  velocity : ℚ
  velocity_twoff : ℚ
  vtime : ℚ
deriving DecidableEq

/-- In-place update of one list element (Rust `commands[i].tw_off -= …`). -/
def updateAt : List Command → ℕ → (Command → Command) → List Command
  | [], _, _ => []
  | c :: rest, 0, f => f c :: rest
  | c :: rest, n + 1, f => c :: updateAt rest n f

/-- One iteration of the budget loop body at index `i`
(planner.rs, `for i in 0..commands.len() - 1`). -/
def budgetBody (config : Config) (len i : ℕ) (st : BState) : BState :=
  let ci := st.cmds.getD i default
  let ci1 := st.cmds.getD (i + 1) default
  let velocity := st.velocity + |(ci.ticks : ℚ)|
  let vtw := st.velocity_twoff + |ci.tw_off|
  let vtime := st.vtime - config.straight_accel_time * 2
  let vtw := if |ci1.turn| > EPSILON then vtw + |ci1.turn| else vtw
  let vtime := if |ci1.turn| > EPSILON then vtime - 2 * config.turn_accel_time else vtime
  let velocity := if i = len - 2 then velocity + |(ci1.ticks : ℚ)| else velocity
  let vtw := if i = len - 2 then vtw + |ci1.tw_off| else vtw
  let vtime := if i = len - 2 then vtime - config.straight_accel_time * 2 else vtime
  if |ci1.turn| < EPSILON then ⟨st.cmds, velocity, vtw, vtime⟩
  else
    ⟨updateAt (updateAt st.cmds i fun c => { c with tw_off := c.tw_off - 1 / 2 })
        (i + 1) fun c => { c with tw_off := c.tw_off - 1 / 2 },
      velocity, vtw, vtime⟩

/-- The budget loop: `n` remaining iterations starting at index `i`. -/
def budgetIter (config : Config) (len : ℕ) : ℕ → ℕ → BState → BState
  | 0, _, st => st
  | n + 1, i, st => budgetIter config len n (i + 1) (budgetBody config len i st)

/-- planner.rs: the whole `for i in 0..commands.len() - 1` budget pass. -/
def budgetPhase (config : Config) (cmds : List Command) (time : ℚ) : BState :=
  budgetIter config cmds.length (cmds.length - 1) 0 ⟨cmds, 0, 0, time⟩

/-- The distinct error results of `plan`. -/
inductive PlanError
  | parseError
  | noTime
  | notEnoughTime
deriving DecidableEq

/-- planner.rs: `PlanningResult`.  `finalAngle` is the value of the
planner's internal `angle` variable after all passes; the Rust struct keeps
it in a local, it is exposed here so heading properties can be stated. -/
structure PlanningResult where
  commands : List Command
  config : ConfigCommand
  finalAngle : ℚ
deriving DecidableEq

/-- The observable outcome of `plan`: a Rust panic (out-of-bounds index), an
`Err`, or `Ok`. -/
inductive PlanOutcome
  | panic
  | error (e : PlanError)
  | ok (r : PlanningResult)
deriving DecidableEq

/-- planner.rs: everything after the parse: the final-position bookkeeping
(`xfin`/`yfin`, dead values, omitted), `tokens[0].target_angle()` (a panic on
an empty token list), emission, end-heading correction, the budget pass and
the feasibility check. -/
def planFromTokens (tokens : List Token) (time : ℚ) (config : Config) : PlanOutcome :=
  match tokens with
  | [] => .panic
  | t0 :: _ =>
    let e := planTokens config tokens t0.target_angle
    let c := correctPhase config tokens e.1 e.2
    let st := budgetPhase config c.1 time
    if st.vtime < 0 then .error .notEnoughTime
    else
      .ok { commands := st.cmds
            config :=
              { kp_turn := config.kp_turn
                kp_hold := config.kp_hold
                kp_straight := config.kp_straight
                kp_velocity := config.kp_velocity
                turn_accel_time := config.turn_accel_time
                straight_accel_time := config.straight_accel_time
                friction := config.friction
                dowel_off := config.dowel_off
                velocity := st.velocity
                velocity_twoff := st.velocity_twoff
                time := time
                vtime := st.vtime }
            finalAngle := c.2 }

/-- Rust `str::split_whitespace`: split on whitespace, dropping empty
pieces. -/
def splitWS (s : String) : List String :=
  (s.split Char.isWhitespace).filter (· ≠ "")

/-- Digit list to natural number. -/
def digitsVal (cs : List Char) : ℕ :=
  cs.foldl (fun a c => 10 * a + (c.toNat - 48)) 0

/-- Split a character list at the first character satisfying `p`; the
second component is `none` when no such character occurs. -/
def splitFirst (p : Char → Bool) : List Char → List Char × Option (List Char)
  | [] => ([], none)
  | c :: rest =>
    if p c then ([], some rest)
    else
      let r := splitFirst p rest
      (c :: r.1, r.2)

/-- Optional leading sign: returns (sign, remaining characters). -/
def takeSign : List Char → ℚ × List Char
  | '+' :: rest => (1, rest)
  | '-' :: rest => (-1, rest)
  | cs => (1, cs)

/-- The significand of a float literal: `digits`, `digits.digits?` or
`.digits`. -/
def parseMantissa (cs : List Char) : Option ℚ :=
  match splitFirst (· = '.') cs with
  | (intPart, none) =>
    if intPart ≠ [] ∧ intPart.all Char.isDigit then some (digitsVal intPart) else none
  | (intPart, some frac) =>
    if (intPart ≠ [] ∨ frac ≠ []) ∧ intPart.all Char.isDigit ∧ frac.all Char.isDigit then
      some ((digitsVal intPart : ℚ) + (digitsVal frac : ℚ) / 10 ^ frac.length)
    else none

/-- Rust `str::parse::<f32>` on finite decimal literals:
`[sign] significand [(e|E) [sign] digits]`.  (The literals `inf`,
`infinity` and `nan` are accepted by Rust but have no rational value and
are not modelled.) -/
def parseF32 (s : String) : Option ℚ :=
  let (sgn, cs) := takeSign s.toList
  let (mant, expo) := splitFirst (fun c => c = 'e' ∨ c = 'E') cs
  match parseMantissa mant, expo with
  | some m, none => some (sgn * m)
  | some m, some ec =>
    let (esgn, ed) := takeSign ec
    if ed ≠ [] ∧ ed.all Char.isDigit then
      some (if 0 ≤ esgn then sgn * m * 10 ^ digitsVal ed
            else sgn * m / 10 ^ digitsVal ed)
    else none
  | none, _ => none

/-- planner.rs: the parse loop.  Lines with fewer than two
whitespace-separated fields or whose first field starts with `#` are
skipped; otherwise the second field must parse as a float and the first
field (lowercased) must be one of the five keywords; `time` updates the
running time value (last occurrence wins), the others append a token.  Any
failure aborts the whole parse (`none`). -/
def parseLines : List String → List Token → ℚ → Option (List Token × ℚ)
  | [], toks, time => some (toks, time)
  | line :: rest, toks, time =>
    let parts := splitWS line
    if parts.length < 2 ∨ (parts.headD "").startsWith "#" then
      parseLines rest toks time
    else
      match parseF32 (parts.getD 1 "") with
      | none => none
      | some ticks =>
        let kw := (parts.headD "").toLower
        if kw = "up" then parseLines rest (toks ++ [.up ticks]) time
        else if kw = "down" then parseLines rest (toks ++ [.down ticks]) time
        else if kw = "left" then parseLines rest (toks ++ [.left ticks]) time
        else if kw = "right" then parseLines rest (toks ++ [.right ticks]) time
        else if kw = "time" then parseLines rest toks ticks
        else none

/-- planner.rs: `pub fn plan(path, config)`.  The file is modelled as its
list of lines.  A parse failure or the `time == 0.0` check abort before any
planning; an empty token list then panics at `tokens[0]`. -/
def plan (lines : List String) (config : Config) : PlanOutcome :=
  match parseLines lines [] 0 with
  | none => .error .parseError
  | some (tokens, time) =>
    if time = 0 then .error .noTime
    else planFromTokens tokens time config

/-- Whether the outcome is `Ok`. -/
def PlanOutcome.isOk : PlanOutcome → Bool
  | .ok _ => true
  | _ => false

/-- The command list of an `Ok` outcome ([] otherwise). -/
def PlanOutcome.commandsD : PlanOutcome → List Command
  | .ok r => r.commands
  | _ => []

/-- The `ConfigCommand` of an `Ok` outcome (zeroes otherwise). -/
def PlanOutcome.configD : PlanOutcome → ConfigCommand
  | .ok r => r.config
  | _ => default

/-- The final heading of an `Ok` outcome (0 otherwise). -/
def PlanOutcome.finalAngleD : PlanOutcome → ℚ
  | .ok r => r.finalAngle
  | _ => 0

/-- C1, counterexample: the script `right 1 / left 1 / time 10` is accepted
by the planner, the target angle of its last instruction is π, yet the
heading after both the emission pass and the correction pass is 0: the
reversal was folded into backward driving, no command carries a non-zero
turn, so the correction pass cannot restore the heading and the final
heading misses the target by π — far beyond EPSILON. -/
theorem c1_counterexample :
    (plan ["right 1", "left 1", "time 10"] defaultConfig).isOk = true ∧
    parseLines ["right 1", "left 1", "time 10"] [] 0 =
      some ([Token.right 1, Token.left 1], 10) ∧
    Token.target_angle (Token.left 1) = PI ∧
    (plan ["right 1", "left 1", "time 10"] defaultConfig).finalAngleD = 0 ∧
    ¬ |(plan ["right 1", "left 1", "time 10"] defaultConfig).finalAngleD -
        Token.target_angle (Token.left 1)| < EPSILON := by
  refine ⟨by with_unfolding_all rfl, by with_unfolding_all rfl,
    by with_unfolding_all rfl, by with_unfolding_all rfl, ?_⟩
  have h1 : (plan ["right 1", "left 1", "time 10"] defaultConfig).finalAngleD = 0 := by
    with_unfolding_all rfl
  have h2 : Token.target_angle (Token.left 1) = PI := by with_unfolding_all rfl
  rw [h1, h2, zero_sub, abs_neg, abs_of_pos (by norm_num [PI] : (0 : ℚ) < PI)]
  norm_num [PI, EPSILON]

/-- C2, counterexample: for the script `right 10 / up 10 / time 5` the first
command's tick distance is 10 × ticks_per_cm × CM_PER_SQUARE = 50000 ticks,
not 10 × ticks_per_cm = 1000 ticks as the claim states. -/
theorem c2_counterexample :
    (((plan ["right 10", "up 10", "time 5"] defaultConfig).commandsD.getD 0
        default).ticks : ℚ) = 50000 ∧
    10 * defaultConfig.ticks_per_cm = 1000 ∧
    (((plan ["right 10", "up 10", "time 5"] defaultConfig).commandsD.getD 0
        default).ticks : ℚ) ≠ 10 * defaultConfig.ticks_per_cm := by
  have h1 : (((plan ["right 10", "up 10", "time 5"] defaultConfig).commandsD.getD 0
      default).ticks : ℚ) = 50000 := by with_unfolding_all rfl
  have h2 : 10 * defaultConfig.ticks_per_cm = 1000 := by with_unfolding_all rfl
  refine ⟨h1, h2, ?_⟩
  rw [h1, h2]
  norm_num

/-- C2, amended: the script `right 10 / up 10 / time 5` produces exactly two
commands, the first with turn 0 and the second with turn +π/2, each with a
tick distance of 10 × ticks_per_cm × CM_PER_SQUARE ticks (the magnitude is
scaled by the 50 cm grid-square size, not by ticks_per_cm alone), and the
final heading is +π/2. -/
theorem c2_scenario_amended :
    (plan ["right 10", "up 10", "time 5"] defaultConfig).commandsD =
      [⟨CommandType.turnMove.toU8, 0, 50000, -(1 / 2)⟩,
       ⟨CommandType.turnMove.toU8, PI / 2, 50000, -(1 / 2)⟩] ∧
    (plan ["right 10", "up 10", "time 5"] defaultConfig).finalAngleD = PI / 2 ∧
    (50000 : ℚ) = 10 * defaultConfig.ticks_per_cm * CM_PER_SQUARE := by
  refine ⟨by with_unfolding_all rfl, by with_unfolding_all rfl, by with_unfolding_all rfl⟩

/-- C3, counterexample: the script consisting of exactly the lines
`right 10 / left 10` carries no time directive, so `plan` rejects it with
the missing-time error before the emitter runs: no command is emitted at
all, hence no "second emitted command" exists for the claim to speak
about. -/
theorem c3_counterexample :
    plan ["right 10", "left 10"] defaultConfig = .error .noTime ∧
    (plan ["right 10", "left 10"] defaultConfig).commandsD = [] := by
  refine ⟨by with_unfolding_all rfl, by with_unfolding_all rfl⟩

/-- C3, amended: once a time directive is added (`right 10 / left 10 /
time 10`), the direction reversal is folded by the modulo-π rule: the second
command's turn is exactly 0 and its tick distance is negated (reverse
driving), and no command of the plan carries a turn of ±π. -/
theorem c3_scenario_amended :
    (plan ["right 10", "left 10", "time 10"] defaultConfig).commandsD =
      [⟨CommandType.turnMove.toU8, 0, 50000, 0⟩,
       ⟨CommandType.turnMove.toU8, 0, -50000, 0⟩] ∧
    (∀ c ∈ (plan ["right 10", "left 10", "time 10"] defaultConfig).commandsD,
      c.turn ≠ PI ∧ c.turn ≠ -PI) := by
  have h : (plan ["right 10", "left 10", "time 10"] defaultConfig).commandsD =
      [⟨CommandType.turnMove.toU8, 0, 50000, 0⟩,
       ⟨CommandType.turnMove.toU8, 0, -50000, 0⟩] := by with_unfolding_all rfl
  refine ⟨h, ?_⟩
  rw [h]
  intro c hc
  simp only [List.mem_cons, List.not_mem_nil, or_false] at hc
  rcases hc with rfl | rfl <;> constructor <;> norm_num [PI]

/-- C4, counterexample: the single-command plan `right 10 / time 5` is
accepted, its only command travels 50000 ticks, yet the aggregate velocity
field is 0 (not 50000) and the remaining time budget equals the full
user-specified time (no 2 × straight_accel_time was subtracted): the budget
loop `for i in 0..len-1` does not run at all for one command. -/
theorem c4_counterexample :
    (plan ["right 10", "time 5"] defaultConfig).isOk = true ∧
    (plan ["right 10", "time 5"] defaultConfig).commandsD.length = 1 ∧
    ((plan ["right 10", "time 5"] defaultConfig).commandsD.getD 0
        default).ticks = 50000 ∧
    (plan ["right 10", "time 5"] defaultConfig).configD.velocity = 0 ∧
    (plan ["right 10", "time 5"] defaultConfig).configD.vtime = 5 ∧
    (plan ["right 10", "time 5"] defaultConfig).configD.vtime ≠
      (plan ["right 10", "time 5"] defaultConfig).configD.time -
        2 * defaultConfig.straight_accel_time * 1 := by
  have h1 : (plan ["right 10", "time 5"] defaultConfig).configD.vtime = 5 := by
    with_unfolding_all rfl
  have h2 : (plan ["right 10", "time 5"] defaultConfig).configD.time = 5 := by
    with_unfolding_all rfl
  refine ⟨by with_unfolding_all rfl, by with_unfolding_all rfl, by with_unfolding_all rfl,
    by with_unfolding_all rfl, h1, ?_⟩
  rw [h1, h2]
  norm_num [defaultConfig]

/-- C5, counterexample: for the accepted plan of `right 10 / up 10 /
time 5` the final per-command offsets are −1/2 and −1/2 (their absolute
values sum to 1) and the only non-zero turn has magnitude π/2, yet the
aggregate lateral offset field is π/2 alone — not 1 + π/2 as the claim's
formula (sum of absolute per-command offsets plus non-zero turn magnitudes)
demands, because the loop reads each offset before decrementing it. -/
theorem c5_counterexample :
    (((plan ["right 10", "up 10", "time 5"] defaultConfig).commandsD.map
        (fun c => |c.tw_off|)).sum) = 1 ∧
    ((((plan ["right 10", "up 10", "time 5"] defaultConfig).commandsD.filter
        (fun c => decide (EPSILON < |c.turn|))).map (fun c => |c.turn|)).sum) = PI / 2 ∧
    (plan ["right 10", "up 10", "time 5"] defaultConfig).configD.velocity_twoff = PI / 2 ∧
    (plan ["right 10", "up 10", "time 5"] defaultConfig).configD.velocity_twoff ≠
      (((plan ["right 10", "up 10", "time 5"] defaultConfig).commandsD.map
          (fun c => |c.tw_off|)).sum) +
      ((((plan ["right 10", "up 10", "time 5"] defaultConfig).commandsD.filter
          (fun c => decide (EPSILON < |c.turn|))).map (fun c => |c.turn|)).sum) := by
  have h1 : (((plan ["right 10", "up 10", "time 5"] defaultConfig).commandsD.map
      (fun c => |c.tw_off|)).sum) = 1 := by with_unfolding_all rfl
  have h2 : ((((plan ["right 10", "up 10", "time 5"] defaultConfig).commandsD.filter
      (fun c => decide (EPSILON < |c.turn|))).map (fun c => |c.turn|)).sum) = PI / 2 := by
    with_unfolding_all rfl
  have h3 : (plan ["right 10", "up 10", "time 5"] defaultConfig).configD.velocity_twoff
      = PI / 2 := by with_unfolding_all rfl
  refine ⟨h1, h2, h3, ?_⟩
  rw [h1, h2, h3]
  norm_num [PI]

/-- C6: a script that parses to zero instructions but does carry a time
directive (the single line `time 5`) drives `plan` into the out-of-bounds
access `tokens[0].target_angle()` — a panic, not an error result; only when
the time directive is also missing (e.g. the empty script) does `plan`
return a proper error. -/
theorem c6_time_only_script_panics :
    plan ["time 5"] defaultConfig = .panic ∧
    plan [] defaultConfig = .error .noTime := by
  refine ⟨by with_unfolding_all rfl, by with_unfolding_all rfl⟩

/-- C10: a parse that ends with time value 0 (e.g. a last directive
`time 0`) is rejected with exactly the missing-time error, the same error a
script with no time directive at all receives; a negative time value passes
the parse (the budget is set to −5) and only fails in the later feasibility
check with the not-enough-time error. -/
theorem c10_time_zero :
    (∀ (lines : List String) (config : Config) (toks : List Token),
      parseLines lines [] 0 = some (toks, 0) →
      plan lines config = .error .noTime) ∧
    parseLines ["right 10", "time -5"] [] 0 = some ([Token.right 10], -5) ∧
    plan ["right 10", "time -5"] defaultConfig = .error .notEnoughTime ∧
    plan ["right 10"] defaultConfig = .error .noTime := by
  refine ⟨fun lines config toks h => ?_, by with_unfolding_all rfl,
    by with_unfolding_all rfl, by with_unfolding_all rfl⟩
  simp [plan, h]

/-- Witness for C10: the script `right 10 / time 0` parses to time 0 and is
rejected with the missing-time error. -/
theorem c10_time_zero_witness :
    plan ["right 10", "time 0"] defaultConfig = .error .noTime :=
  c10_time_zero.1 _ defaultConfig [Token.right 10] (by with_unfolding_all rfl)

/-- connection.rs: `send_command` and `transmit` serialize a `Command` with
`slice::from_raw_parts(&cmd as *const Command as *const u8, size_of)`.  For
a `#[repr(C, packed)]` struct this is the fields' machine encodings laid
end to end in declaration order with no padding: the 1-byte type tag, then
the 4-byte `f32` turn, the 4-byte `i32` tick count and the 4-byte `f32`
track-width offset.  The 4-byte value encodings are abstract parameters
(`f32le`, `i32le`), so every theorem below holds for any encoder that
produces four bytes per value. -/
def serializeCommand (f32le : ℚ → List ℕ) (i32le : ℤ → List ℕ) (c : Command) : List ℕ :=
  [c.command_type] ++ f32le c.turn ++ i32le c.ticks ++ f32le c.tw_off

/-- connection.rs: the raw-memory image of `#[repr(C, packed)] struct
ConfigCommand`: twelve 4-byte floats in declaration order, no padding. -/
def serializeConfigCommand (f32le : ℚ → List ℕ) (c : ConfigCommand) : List ℕ :=
  f32le c.kp_turn ++ f32le c.kp_hold ++ f32le c.kp_straight ++ f32le c.kp_velocity ++
    f32le c.dowel_off ++ f32le c.turn_accel_time ++ f32le c.straight_accel_time ++
    f32le c.velocity ++ f32le c.velocity_twoff ++ f32le c.friction ++ f32le c.time ++
    f32le c.vtime

/-- A list of length four is an explicit four-element list. -/
theorem length_four {α : Type} (l : List α) (h : l.length = 4) :
    ∃ a b c d, l = [a, b, c, d] := by
  match l with
  | [a, b, c, d] => exact ⟨a, b, c, d, rfl⟩
  | [] | [_] | [_, _] | [_, _, _] => simp at h
  | _ :: _ :: _ :: _ :: _ :: _ => simp at h

/-- C8: the wire form of a `Command` is exactly 13 bytes — the 1-byte type
tag, the 4-byte turn, the 4-byte signed tick count and the 4-byte
track-width offset, in that order with no padding — and the wire form of a
`ConfigCommand` is exactly 48 bytes: the twelve 4-byte floats kp_turn,
kp_hold, kp_straight, kp_velocity, dowel_off, turn_accel_time,
straight_accel_time, velocity, velocity_twoff, friction, time, vtime in
declaration order with no padding. -/
theorem c8_wire_layout (f32le : ℚ → List ℕ) (i32le : ℤ → List ℕ)
    (hf : ∀ q, (f32le q).length = 4) (hi : ∀ z, (i32le z).length = 4)
    (c : Command) (cc : ConfigCommand) :
    (serializeCommand f32le i32le c).length = 13 ∧
    (serializeCommand f32le i32le c).take 1 = [c.command_type] ∧
    (((serializeCommand f32le i32le c).drop 1).take 4 = f32le c.turn ∧
     ((serializeCommand f32le i32le c).drop 5).take 4 = i32le c.ticks ∧
     (serializeCommand f32le i32le c).drop 9 = f32le c.tw_off) ∧
    (serializeConfigCommand f32le cc).length = 48 ∧
    ((serializeConfigCommand f32le cc).take 4 = f32le cc.kp_turn ∧
     ((serializeConfigCommand f32le cc).drop 4).take 4 = f32le cc.kp_hold ∧
     ((serializeConfigCommand f32le cc).drop 8).take 4 = f32le cc.kp_straight ∧
     ((serializeConfigCommand f32le cc).drop 12).take 4 = f32le cc.kp_velocity ∧
     ((serializeConfigCommand f32le cc).drop 16).take 4 = f32le cc.dowel_off ∧
     ((serializeConfigCommand f32le cc).drop 20).take 4 = f32le cc.turn_accel_time ∧
     ((serializeConfigCommand f32le cc).drop 24).take 4 = f32le cc.straight_accel_time ∧
     ((serializeConfigCommand f32le cc).drop 28).take 4 = f32le cc.velocity ∧
     ((serializeConfigCommand f32le cc).drop 32).take 4 = f32le cc.velocity_twoff ∧
     ((serializeConfigCommand f32le cc).drop 36).take 4 = f32le cc.friction ∧
     ((serializeConfigCommand f32le cc).drop 40).take 4 = f32le cc.time ∧
     (serializeConfigCommand f32le cc).drop 44 = f32le cc.vtime) := by
  obtain ⟨a1, a2, a3, a4, e1⟩ := length_four _ (hf c.turn)
  obtain ⟨b1, b2, b3, b4, e2⟩ := length_four _ (hi c.ticks)
  obtain ⟨d1, d2, d3, d4, e3⟩ := length_four _ (hf c.tw_off)
  obtain ⟨k1, k2, k3, k4, f1⟩ := length_four _ (hf cc.kp_turn)
  obtain ⟨l1, l2, l3, l4, f2⟩ := length_four _ (hf cc.kp_hold)
  obtain ⟨m1, m2, m3, m4, f3⟩ := length_four _ (hf cc.kp_straight)
  obtain ⟨n1, n2, n3, n4, f4⟩ := length_four _ (hf cc.kp_velocity)
  obtain ⟨o1, o2, o3, o4, f5⟩ := length_four _ (hf cc.dowel_off)
  obtain ⟨p1, p2, p3, p4, f6⟩ := length_four _ (hf cc.turn_accel_time)
  obtain ⟨q1, q2, q3, q4, f7⟩ := length_four _ (hf cc.straight_accel_time)
  obtain ⟨r1, r2, r3, r4, f8⟩ := length_four _ (hf cc.velocity)
  obtain ⟨s1, s2, s3, s4, f9⟩ := length_four _ (hf cc.velocity_twoff)
  obtain ⟨t1, t2, t3, t4, f10⟩ := length_four _ (hf cc.friction)
  obtain ⟨u1, u2, u3, u4, f11⟩ := length_four _ (hf cc.time)
  obtain ⟨v1, v2, v3, v4, f12⟩ := length_four _ (hf cc.vtime)
  refine ⟨?_, ?_, ⟨?_, ?_, ?_⟩, ?_, ?_, ?_, ?_, ?_, ?_, ?_, ?_, ?_, ?_, ?_, ?_, ?_⟩ <;>
    simp [serializeCommand, serializeConfigCommand,
      e1, e2, e3, f1, f2, f3, f4, f5, f6, f7, f8, f9, f10, f11, f12]

/-- Witness for C8 at a concrete four-byte encoder and the default
records. -/
theorem c8_wire_layout_witness :
    (serializeCommand (fun _ : ℚ => [0, 0, 0, 0]) (fun _ : ℤ => [0, 0, 0, 0])
      default).length = 13 :=
  (c8_wire_layout (fun _ => [0, 0, 0, 0]) (fun _ => [0, 0, 0, 0])
    (fun _ => rfl) (fun _ => rfl) default default).1

/-- The observable serial-port actions of connection.rs, in order:
clearing the input buffer, writing a byte string, flushing, and the
blocking one-byte acknowledgment read. -/
inductive SerialEvent
  | clearInput
  | readAck
  | writeBytes (data : List ℕ)
  | flushPort
deriving DecidableEq

/-- connection.rs: `send_command` = write the 13-byte record, then flush. -/
def send_commandTrace (f32le : ℚ → List ℕ) (i32le : ℤ → List ℕ)
    (c : Command) : List SerialEvent :=
  [.writeBytes (serializeCommand f32le i32le c), .flushPort]

/-- connection.rs, `transmit`: the header record `Command { command_type:
Transmit, turn: 0.0, ticks: moves.len() as i32, tw_off: 0.0 }`. -/
def transmitHeader (moves : List Command) : Command :=
  ⟨CommandType.transmit.toU8, 0, (moves.length : ℤ), 0⟩

/-- connection.rs: the serial-event trace of `transmit(cfg, moves)`:
clear input, write the ConfigCommand record, flush, read one ack; then
`send_command` of the Transmit header; then for each move, read one ack and
`send_command` the move's record. -/
def transmitTrace (f32le : ℚ → List ℕ) (i32le : ℤ → List ℕ)
    (cfg : ConfigCommand) (moves : List Command) : List SerialEvent :=
  [.clearInput, .writeBytes (serializeConfigCommand f32le cfg), .flushPort, .readAck]
    ++ send_commandTrace f32le i32le (transmitHeader moves)
    ++ moves.flatMap (fun m => .readAck :: send_commandTrace f32le i32le m)

/-- Whether a serial event is the one-byte acknowledgment read. -/
def isAck : SerialEvent → Bool
  | .readAck => true
  | _ => false

/-- Number of acknowledgment reads in a trace. -/
def countAcks (tr : List SerialEvent) : ℕ := (tr.filter isAck).length

/-- Dropping `3 n` events of the per-command phase lands exactly at the
ack-read that precedes the n-th command record. -/
theorem transmit_flatMap_drop (f32le : ℚ → List ℕ) (i32le : ℤ → List ℕ) :
    ∀ (moves : List Command) (n : ℕ), n < moves.length →
      ((moves.flatMap fun m =>
          SerialEvent.readAck :: send_commandTrace f32le i32le m).drop (3 * n)) =
        SerialEvent.readAck ::
          SerialEvent.writeBytes (serializeCommand f32le i32le (moves.getD n default)) ::
            SerialEvent.flushPort ::
              ((moves.drop (n + 1)).flatMap fun m =>
                SerialEvent.readAck :: send_commandTrace f32le i32le m) := by
  intro moves
  induction moves with
  | nil => intro n h; simp at h
  | cons m rest ih =>
    intro n h
    cases n with
    | zero => simp [send_commandTrace]
    | succ n =>
      have h' : n < rest.length := by simpa using h
      have := ih n h'
      rw [show 3 * (n + 1) = 3 * n + 1 + 1 + 1 by ring]
      simpa [send_commandTrace] using this

/-- The per-command phase contains exactly `n + 1` ack reads up to (and
including) the ack that precedes the n-th command record. -/
theorem transmit_flatMap_count (f32le : ℚ → List ℕ) (i32le : ℤ → List ℕ) :
    ∀ (moves : List Command) (n : ℕ), n < moves.length →
      countAcks ((moves.flatMap fun m =>
        SerialEvent.readAck :: send_commandTrace f32le i32le m).take (3 * n + 1)) = n + 1 := by
  intro moves
  induction moves with
  | nil => intro n h; simp at h
  | cons m rest ih =>
    intro n h
    cases n with
    | zero => simp [countAcks, send_commandTrace, isAck]
    | succ n =>
      have h' : n < rest.length := by simpa using h
      have := ih n h'
      rw [show 3 * (n + 1) + 1 = 3 * n + 1 + 1 + 1 + 1 by ring]
      simpa [countAcks, send_commandTrace, isAck] using this

/-- C9: in every transmission, after the config phase (clear, write config
record, flush, one blocking ack read) the transmitter first writes one
header record whose tick field carries the number of motion commands, and
then, for each motion command `n`, reads exactly one further ack byte
immediately before writing that command's record: exactly `n + 2` ack reads
(one for the config record and one per command 0..n) precede the write of
record `n`, so record `n + 1` is never written before the ack following
record `n` has been read. -/
theorem c9_ack_gated (f32le : ℚ → List ℕ) (i32le : ℤ → List ℕ)
    (cfg : ConfigCommand) (moves : List Command) (n : ℕ) (hn : n < moves.length) :
    (transmitHeader moves).ticks = (moves.length : ℤ) ∧
    (transmitTrace f32le i32le cfg moves).take 6 =
      [.clearInput, .writeBytes (serializeConfigCommand f32le cfg), .flushPort, .readAck,
       .writeBytes (serializeCommand f32le i32le (transmitHeader moves)), .flushPort] ∧
    (transmitTrace f32le i32le cfg moves).drop (6 + 3 * n) =
      SerialEvent.readAck ::
        SerialEvent.writeBytes (serializeCommand f32le i32le (moves.getD n default)) ::
          SerialEvent.flushPort ::
            ((moves.drop (n + 1)).flatMap fun m =>
              SerialEvent.readAck :: send_commandTrace f32le i32le m) ∧
    countAcks ((transmitTrace f32le i32le cfg moves).take (7 + 3 * n)) = n + 2 := by
  refine ⟨rfl, by simp [transmitTrace, send_commandTrace], ?_, ?_⟩
  · rw [show 6 + 3 * n = 3 * n + 1 + 1 + 1 + 1 + 1 + 1 by ring]
    simpa [transmitTrace, send_commandTrace] using
      transmit_flatMap_drop f32le i32le moves n hn
  · rw [show 7 + 3 * n = 3 * n + 1 + 1 + 1 + 1 + 1 + 1 + 1 by ring]
    simpa [transmitTrace, send_commandTrace, countAcks, isAck] using
      transmit_flatMap_count f32le i32le moves n hn

/-- Witness for C9: one motion command, checked at index 0 with a concrete
four-byte encoder. -/
theorem c9_ack_gated_witness :
    (transmitHeader [(default : Command)]).ticks = (([(default : Command)].length : ℕ) : ℤ) ∧
    (transmitTrace (fun _ => [0, 0, 0, 0]) (fun _ => [0, 0, 0, 0]) default
        [(default : Command)]).take 6 =
      [.clearInput,
       .writeBytes (serializeConfigCommand (fun _ => [0, 0, 0, 0]) default), .flushPort,
       .readAck,
       .writeBytes (serializeCommand (fun _ => [0, 0, 0, 0]) (fun _ => [0, 0, 0, 0])
          (transmitHeader [(default : Command)])), .flushPort] ∧
    (transmitTrace (fun _ => [0, 0, 0, 0]) (fun _ => [0, 0, 0, 0]) default
        [(default : Command)]).drop (6 + 3 * 0) =
      SerialEvent.readAck ::
        SerialEvent.writeBytes (serializeCommand (fun _ => [0, 0, 0, 0])
          (fun _ => [0, 0, 0, 0]) ([(default : Command)].getD 0 default)) ::
          SerialEvent.flushPort ::
            (([(default : Command)].drop (0 + 1)).flatMap fun m =>
              SerialEvent.readAck ::
                send_commandTrace (fun _ => [0, 0, 0, 0]) (fun _ => [0, 0, 0, 0]) m) ∧
    countAcks ((transmitTrace (fun _ => [0, 0, 0, 0]) (fun _ => [0, 0, 0, 0]) default
        [(default : Command)]).take (7 + 3 * 0)) = 0 + 2 :=
  c9_ack_gated (fun _ => [0, 0, 0, 0]) (fun _ => [0, 0, 0, 0]) default
    [(default : Command)] 0 (by simp)

/-- A line with at least two fields, not a comment, whose first field is an
unknown keyword or whose second field is not numeric, makes the parse of
any script containing it fail, whatever the accumulated state. -/
theorem parseLines_err :
    ∀ (lines : List String) (toks : List Token) (time : ℚ) (line : String),
      line ∈ lines →
      2 ≤ (splitWS line).length →
      ¬ ((splitWS line).headD "").startsWith "#" →
      (parseF32 ((splitWS line).getD 1 "") = none ∨
        ((splitWS line).headD "").toLower ∉
          (["up", "down", "left", "right", "time"] : List String)) →
      parseLines lines toks time = none := by
  intro lines
  induction lines with
  | nil => intro _ _ _ h; simp at h
  | cons l rest ih =>
    intro toks time line hmem hlen hhash hbad
    rcases List.mem_cons.mp hmem with rfl | hmem
    · rw [parseLines]
      rw [if_neg (by push_neg; exact ⟨by omega, hhash⟩)]
      rcases hbad with hbad | hbad
      · rw [hbad]
      · cases hp : parseF32 ((splitWS line).getD 1 "") with
        | none => rfl
        | some v =>
          simp only [List.mem_cons, List.not_mem_nil, or_false, not_or] at hbad
          obtain ⟨h1, h2, h3, h4, h5⟩ := hbad
          dsimp only
          simp only [if_neg h1, if_neg h2, if_neg h3, if_neg h4, if_neg h5]
    · rw [parseLines]
      by_cases hskip : (splitWS l).length < 2 ∨ ((splitWS l).headD "").startsWith "#"
      · rw [if_pos hskip]; exact ih toks time line hmem hlen hhash hbad
      · rw [if_neg hskip]
        cases hp : parseF32 ((splitWS l).getD 1 "") with
        | none => rfl
        | some v =>
          dsimp only
          by_cases k1 : ((splitWS l).headD "").toLower = "up"
          · rw [if_pos k1]; exact ih _ time line hmem hlen hhash hbad
          rw [if_neg k1]
          by_cases k2 : ((splitWS l).headD "").toLower = "down"
          · rw [if_pos k2]; exact ih _ time line hmem hlen hhash hbad
          rw [if_neg k2]
          by_cases k3 : ((splitWS l).headD "").toLower = "left"
          · rw [if_pos k3]; exact ih _ time line hmem hlen hhash hbad
          rw [if_neg k3]
          by_cases k4 : ((splitWS l).headD "").toLower = "right"
          · rw [if_pos k4]; exact ih _ time line hmem hlen hhash hbad
          rw [if_neg k4]
          by_cases k5 : ((splitWS l).headD "").toLower = "time"
          · rw [if_pos k5]; exact ih toks v line hmem hlen hhash hbad
          rw [if_neg k5]

/-- A line with fewer than two fields is skipped by the parse: removing it
changes nothing, whatever the accumulated state. -/
theorem parseLines_skip :
    ∀ (pre : List String) (post : List String) (line : String) (toks : List Token)
      (time : ℚ), (splitWS line).length < 2 →
      parseLines (pre ++ line :: post) toks time = parseLines (pre ++ post) toks time := by
  intro pre
  induction pre with
  | nil =>
    intro post line toks time hlen
    simp only [List.nil_append]
    rw [parseLines, if_pos (Or.inl hlen)]
  | cons l pre' ih =>
    intro post line toks time hlen
    simp only [List.cons_append]
    rw [parseLines, parseLines]
    by_cases hskip : (splitWS l).length < 2 ∨ ((splitWS l).headD "").startsWith "#"
    · rw [if_pos hskip, if_pos hskip]; exact ih post line toks time hlen
    · rw [if_neg hskip, if_neg hskip]
      cases hp : parseF32 ((splitWS l).getD 1 "") with
      | none => rfl
      | some v =>
        dsimp only
        by_cases k1 : ((splitWS l).headD "").toLower = "up"
        · rw [if_pos k1, if_pos k1]; exact ih post line _ time hlen
        rw [if_neg k1, if_neg k1]
        by_cases k2 : ((splitWS l).headD "").toLower = "down"
        · rw [if_pos k2, if_pos k2]; exact ih post line _ time hlen
        rw [if_neg k2, if_neg k2]
        by_cases k3 : ((splitWS l).headD "").toLower = "left"
        · rw [if_pos k3, if_pos k3]; exact ih post line _ time hlen
        rw [if_neg k3, if_neg k3]
        by_cases k4 : ((splitWS l).headD "").toLower = "right"
        · rw [if_pos k4, if_pos k4]; exact ih post line _ time hlen
        rw [if_neg k4, if_neg k4]
        by_cases k5 : ((splitWS l).headD "").toLower = "time"
        · rw [if_pos k5, if_pos k5]; exact ih post line toks v hlen
        rw [if_neg k5, if_neg k5]

/-- C7, amended: a non-comment line (first field not starting with `#`)
with at least two whitespace-separated fields whose first field is a
keyword other than up/down/left/right/time (case-insensitively) or whose
second field is not numeric makes the whole plan fail with a parse error
and no commands; and a line with fewer than two fields is silently skipped
wherever it occurs.  (The claim as stated also covered comment lines, which
are skipped, not rejected — see the counterexample.) -/
theorem c7_parse_amended :
    (∀ (lines : List String) (config : Config) (line : String),
      line ∈ lines →
      2 ≤ (splitWS line).length →
      ¬ ((splitWS line).headD "").startsWith "#" →
      (parseF32 ((splitWS line).getD 1 "") = none ∨
        ((splitWS line).headD "").toLower ∉
          (["up", "down", "left", "right", "time"] : List String)) →
      plan lines config = .error .parseError) ∧
    (∀ (pre post : List String) (line : String) (config : Config),
      (splitWS line).length < 2 →
      plan (pre ++ line :: post) config = plan (pre ++ post) config) := by
  constructor
  · intro lines config line hmem hlen hhash hbad
    have h := parseLines_err lines [] 0 line hmem hlen hhash hbad
    simp [plan, h]
  · intro pre post line config hlen
    have h := parseLines_skip pre post line [] 0 hlen
    simp [plan, h]

/-- Witness for C7: the unknown-keyword line `diagonal 5` aborts its script
with a parse error, and the one-field line `up` is skipped. -/
theorem c7_parse_amended_witness :
    plan ["right 1", "diagonal 5", "time 5"] defaultConfig = .error .parseError ∧
    plan ["right 1", "up", "time 5"] defaultConfig = plan ["right 1", "time 5"] defaultConfig := by
  constructor
  · exact c7_parse_amended.1 _ defaultConfig "diagonal 5" (by simp)
      (by with_unfolding_all decide) (by with_unfolding_all decide)
      (Or.inr (by with_unfolding_all decide))
  · exact c7_parse_amended.2 ["right 1"] ["time 5"] "up" defaultConfig
      (by with_unfolding_all decide)

/-- C7, counterexample: a comment line whose first field `#diagonal` is a
keyword other than the five and whose second field is numeric does not
abort the plan — `#`-prefixed lines are skipped, so the claim's "a line
whose first field is a keyword other than up/down/left/right/time … makes
the whole plan fail" is false as stated. -/
theorem c7_counterexample :
    (splitWS "#diagonal 5").length = 2 ∧
    ((splitWS "#diagonal 5").headD "").toLower ∉
      (["up", "down", "left", "right", "time"] : List String) ∧
    parseF32 ((splitWS "#diagonal 5").getD 1 "") = some 5 ∧
    (plan ["right 1", "#diagonal 5", "time 5"] defaultConfig).isOk = true := by
  refine ⟨by with_unfolding_all rfl, by with_unfolding_all decide,
    by with_unfolding_all rfl, by with_unfolding_all rfl⟩

/-- An integer multiple of a quarter turn (π/2).  Every angle the planner
manipulates satisfies this. -/
def QM (a : ℚ) : Prop := ∃ k : ℤ, a = k * (PI / 2)

/-- Every target angle is a multiple of a quarter turn. -/
theorem qm_target (t : Token) : QM t.target_angle := by
  cases t with
  | up _ => exact ⟨1, by norm_num [Token.target_angle]⟩
  | down _ => exact ⟨-1, by norm_num [Token.target_angle]⟩
  | left _ => exact ⟨2, by norm_num [Token.target_angle, PI]⟩
  | right _ => exact ⟨0, by norm_num [Token.target_angle]⟩

/-- A quarter-turn multiple smaller than EPSILON in magnitude is zero. -/
theorem qm_zero_of_small {x : ℚ} (h : QM x) (hx : |x| < EPSILON) : x = 0 := by
  obtain ⟨k, rfl⟩ := h
  rcases eq_or_ne k 0 with rfl | hk
  · simp
  · exfalso
    have h1 : (1 : ℚ) ≤ |(k : ℚ)| := by exact_mod_cast Int.one_le_abs hk
    have hpos : (0 : ℚ) < PI / 2 := by norm_num [PI]
    have h2 : |(k : ℚ) * (PI / 2)| = |(k : ℚ)| * (PI / 2) := by
      rw [abs_mul, abs_of_pos hpos]
    rw [h2] at hx
    have h3 : PI / 2 ≤ |(k : ℚ)| * (PI / 2) := le_mul_of_one_le_left hpos.le h1
    have : (PI / 2 : ℚ) < EPSILON := lt_of_le_of_lt h3 hx
    norm_num [PI, EPSILON] at this

/-- One emission step: the new heading is the token's target angle plus an
integer multiple of π, and remains a quarter-turn multiple. -/
theorem plan_token_angle (tok : Token) (a : ℚ) (config : Config) (ha : QM a) :
    QM (plan_token tok a config).2 ∧
      ∃ m : ℤ, (plan_token tok a config).2 = tok.target_angle + m * PI := by
  obtain ⟨kt, hkt⟩ := qm_target tok
  obtain ⟨ka, hka⟩ := ha
  have hnorm : ∃ j : ℤ, normalizeDang (tok.target_angle - a) =
      (tok.target_angle - a) + j * (2 * PI) := by
    unfold normalizeDang
    split_ifs
    · exact ⟨-1, by ring⟩
    · exact ⟨1, by ring⟩
    · exact ⟨0, by ring⟩
  obtain ⟨j, hj⟩ := hnorm
  have hr : mod_floats (normalizeDang (tok.target_angle - a)) PI =
      (tok.target_angle - a) +
        (2 * j - rustRound (normalizeDang (tok.target_angle - a) / (PI + 2 * EPSILON))) * PI := by
    unfold mod_floats
    rw [hj]
    ring
  set r := rustRound (normalizeDang (tok.target_angle - a) / (PI + 2 * EPSILON)) with hrdef
  have hq2 : QM (mod_floats (normalizeDang (tok.target_angle - a)) PI) := by
    rw [hr, hkt, hka]
    exact ⟨kt - ka + (2 * j - r) * 2, by push_cast; ring⟩
  have hz : zeroGuard (mod_floats (normalizeDang (tok.target_angle - a)) PI) =
      mod_floats (normalizeDang (tok.target_angle - a)) PI := by
    unfold zeroGuard
    split_ifs with hlt
    · exact (qm_zero_of_small hq2 hlt).symm
    · rfl
  have key : (plan_token tok a config).2 =
      tok.target_angle + ((2 * j - r : ℤ) : ℚ) * PI := by
    show a + zeroGuard (mod_floats (normalizeDang (tok.target_angle - a)) PI) =
      tok.target_angle + ((2 * j - r : ℤ) : ℚ) * PI
    rw [hz, hr]
    push_cast
    ring
  refine ⟨?_, 2 * j - r, key⟩
  rw [key, hkt]
  exact ⟨kt + (2 * j - r) * 2, by push_cast; ring⟩

/-- The emission pass over a non-empty token list ends on the last token's
target angle modulo π, at a quarter-turn multiple. -/
theorem planTokens_angle (config : Config) :
    ∀ (ts : List Token) (a : ℚ), ts ≠ [] → QM a →
      QM (planTokens config ts a).2 ∧
        ∃ m : ℤ, (planTokens config ts a).2 = lastTarget ts + m * PI := by
  intro ts
  induction ts with
  | nil => intro a h _; exact absurd rfl h
  | cons t rest ih =>
    intro a _ ha
    cases rest with
    | nil =>
      have h := plan_token_angle t a config ha
      simpa [planTokens, lastTarget] using h
    | cons t' rest' =>
      have h := plan_token_angle t a config ha
      have h2 := ih (plan_token t a config).2 (by simp) h.1
      simpa [planTokens, lastTarget, List.getLast?_cons_cons] using h2

/-- The last target of a non-empty token list is a quarter-turn multiple. -/
theorem qm_lastTarget {ts : List Token} (h : ts ≠ []) : QM (lastTarget ts) := by
  cases hgl : ts.getLast? with
  | none => exact absurd (List.getLast?_eq_none_iff.mp hgl) h
  | some t =>
    have : lastTarget ts = t.target_angle := by simp [lastTarget, hgl]
    rw [this]
    exact qm_target t

/-- Dropping a prefix does not change the last target, as long as something
remains. -/
theorem lastTarget_drop (ts : List Token) (i : ℕ) (h : ts.drop i ≠ []) :
    lastTarget (ts.drop i) = lastTarget ts := by
  conv_rhs => rw [← List.take_append_drop i ts]
  unfold lastTarget
  rw [List.getLast?_append_of_ne_nil _ h]

/-- The end-heading correction keeps the final heading on the last target
angle modulo π, provided the emission pass did. -/
theorem correctPhase_angle (config : Config) (tokens : List Token)
    (cmds0 : List Command) (angle0 : ℚ) (hne : tokens ≠ [])
    (h0 : ∃ m : ℤ, angle0 = lastTarget tokens + m * PI) :
    ∃ m : ℤ, (correctPhase config tokens cmds0 angle0).2 = lastTarget tokens + m * PI := by
  simp only [correctPhase]
  split_ifs with hediff
  · cases hfi : findLastTurnIdx cmds0 with
    | none => exact h0
    | some i =>
      dsimp only
      cases hdr : tokens.drop i with
      | nil => exact h0
      | cons tj rest =>
        dsimp only
        have hne2 : tj :: rest ≠ [] := by simp
        have hqm : QM (lastTarget tokens) := qm_lastTarget hne
        have h := (planTokens_angle config (tj :: rest) (lastTarget tokens) hne2 hqm).2
        have hlast : lastTarget (tj :: rest) = lastTarget tokens := by
          rw [← hdr]
          exact lastTarget_drop tokens i (by rw [hdr]; simp)
        rw [hlast] at h
        obtain ⟨m, hm⟩ := h
        refine ⟨m, ?_⟩
        rw [← hm]
        simp [planTokens]
  · exact h0

/-- Characterisation of a successful `planFromTokens`: the token list is
non-empty and every field of the result comes from the three phases. -/
theorem planFromTokens_ok {tokens : List Token} {time : ℚ} {config : Config}
    {r : PlanningResult} (h : planFromTokens tokens time config = .ok r) :
    ∃ t0 ts, tokens = t0 :: ts ∧
      r.finalAngle = (correctPhase config tokens
        (planTokens config tokens t0.target_angle).1
        (planTokens config tokens t0.target_angle).2).2 ∧
      r.commands = (budgetPhase config (correctPhase config tokens
        (planTokens config tokens t0.target_angle).1
        (planTokens config tokens t0.target_angle).2).1 time).cmds ∧
      r.config.velocity = (budgetPhase config (correctPhase config tokens
        (planTokens config tokens t0.target_angle).1
        (planTokens config tokens t0.target_angle).2).1 time).velocity ∧
      r.config.velocity_twoff = (budgetPhase config (correctPhase config tokens
        (planTokens config tokens t0.target_angle).1
        (planTokens config tokens t0.target_angle).2).1 time).velocity_twoff ∧
      r.config.vtime = (budgetPhase config (correctPhase config tokens
        (planTokens config tokens t0.target_angle).1
        (planTokens config tokens t0.target_angle).2).1 time).vtime ∧
      r.config.time = time ∧
      r.config.straight_accel_time = config.straight_accel_time ∧
      r.config.turn_accel_time = config.turn_accel_time := by
  cases tokens with
  | nil => simp [planFromTokens] at h
  | cons t0 ts =>
    rw [planFromTokens] at h
    split at h
    · exact absurd h (by simp)
    · injection h with h
      subst h
      exact ⟨t0, ts, rfl, rfl, rfl, rfl, rfl, rfl, rfl, rfl, rfl⟩

/-- Characterisation of a successful `plan` in terms of the parse. -/
theorem plan_ok {lines : List String} {config : Config} {toks : List Token}
    {time : ℚ} (hp : parseLines lines [] 0 = some (toks, time))
    (hok : (plan lines config).isOk = true) :
    time ≠ 0 ∧ plan lines config = planFromTokens toks time config := by
  rw [plan, hp] at hok ⊢
  dsimp only at hok ⊢
  split_ifs with ht
  · rw [if_pos ht] at hok
    simp [PlanOutcome.isOk] at hok
  · rw [if_neg ht] at hok
    exact ⟨ht, rfl⟩

/-- C1, amended: for every instruction sequence accepted by the planner,
the heading after the last command — after both the emission pass and the
end-heading correction pass — equals the target angle of the last
instruction up to an integer multiple of π (exactly, in this model).  Exact
equality within epsilon fails in general: when no emitted command carries a
non-zero turn (e.g. a pure reversal folded into reverse driving), the
correction pass cannot act and the heading is off by π — see the
counterexample. -/
theorem c1_final_heading_mod_pi :
    ∀ (lines : List String) (config : Config) (toks : List Token) (time : ℚ),
      parseLines lines [] 0 = some (toks, time) →
      (plan lines config).isOk = true →
      ∃ m : ℤ, (plan lines config).finalAngleD = lastTarget toks + m * PI := by
  intro lines config toks time hp hok
  obtain ⟨htime, heq⟩ := plan_ok hp hok
  rw [heq] at hok ⊢
  cases hout : planFromTokens toks time config with
  | panic => rw [hout] at hok; simp [PlanOutcome.isOk] at hok
  | error e => rw [hout] at hok; simp [PlanOutcome.isOk] at hok
  | ok r =>
    obtain ⟨t0, ts, rfl, hfa, -⟩ := planFromTokens_ok hout
    have hne : t0 :: ts ≠ [] := by simp
    have hem := planTokens_angle config (t0 :: ts) t0.target_angle hne (qm_target t0)
    have hcor := correctPhase_angle config (t0 :: ts)
      (planTokens config (t0 :: ts) t0.target_angle).1
      (planTokens config (t0 :: ts) t0.target_angle).2 hne hem.2
    obtain ⟨m, hm⟩ := hcor
    exact ⟨m, by simpa [PlanOutcome.finalAngleD, hfa] using hm⟩

/-- Witness for C1 at the concrete reversal script: the final heading 0
differs from the last target π by the multiple −1 of π. -/
theorem c1_final_heading_mod_pi_witness :
    ∃ m : ℤ, (plan ["right 1", "left 1", "time 10"] defaultConfig).finalAngleD =
      lastTarget [Token.right 1, Token.left 1] + m * PI :=
  c1_final_heading_mod_pi ["right 1", "left 1", "time 10"] defaultConfig
    [Token.right 1, Token.left 1] 10 (by with_unfolding_all rfl)
    (by with_unfolding_all rfl)

/-- `updateAt` preserves the length. -/
theorem updateAt_length (l : List Command) (k : ℕ) (f : Command → Command) :
    (updateAt l k f).length = l.length := by
  induction l generalizing k with
  | nil => rfl
  | cons c rest ih =>
    cases k with
    | zero => rfl
    | succ k => simp [updateAt, ih]

/-- `updateAt` leaves other indices unchanged. -/
theorem updateAt_getD_ne (l : List Command) (k j : ℕ) (f : Command → Command)
    (h : j ≠ k) : (updateAt l k f).getD j default = l.getD j default := by
  induction l generalizing k j with
  | nil => rfl
  | cons c rest ih =>
    cases k with
    | zero =>
      cases j with
      | zero => exact absurd rfl h
      | succ j => rfl
    | succ k =>
      cases j with
      | zero => rfl
      | succ j => exact ih k j (fun hh => h (by rw [hh]))

/-- `updateAt` applies the function at an in-range index. -/
theorem updateAt_getD_eq (l : List Command) (k : ℕ) (f : Command → Command)
    (h : k < l.length) : (updateAt l k f).getD k default = f (l.getD k default) := by
  induction l generalizing k with
  | nil => simp at h
  | cons c rest ih =>
    cases k with
    | zero => rfl
    | succ k => exact ih k (by simpa using h)

/-- The offset contributed to a command by the turn-transition decrement of
the budget loop iteration *before* it (fires when the command's own turn is
not below EPSILON and a previous iteration exists). -/
def preTw (c : List Command) (j : ℕ) : ℚ :=
  if 1 ≤ j ∧ j < c.length ∧ ¬ |(c.getD j default).turn| < EPSILON then -(1 / 2 : ℚ) else 0

/-- The final offset of command `j` after the budget loop: the decrement
keyed on its own turn plus the decrement keyed on its successor's turn. -/
def finTw (c : List Command) (j : ℕ) : ℚ :=
  preTw c j +
    (if j + 1 < c.length ∧ ¬ |(c.getD (j + 1) default).turn| < EPSILON then -(1 / 2 : ℚ) else 0)

/-- The offset of command `j` at entry of the budget-loop iteration `i`:
indices below `i` are final, index `i` carries only the decrement from
iteration `i − 1`, later indices are untouched. -/
def entryTw (c : List Command) (i j : ℕ) : ℚ :=
  if j < i then finTw c j else if j = i then preTw c j else 0

/-- Sum of absolute tick distances over an index interval. -/
def velSum (c : List Command) (a b : ℕ) : ℚ :=
  ∑ j in Finset.Ico a b, |((c.getD j default).ticks : ℚ)|

/-- Number (as a rational) of commands with turn above EPSILON over an
index interval. -/
def turnCount (c : List Command) (a b : ℕ) : ℚ :=
  ∑ j in Finset.Ico a b, (if EPSILON < |(c.getD j default).turn| then (1 : ℚ) else 0)

/-- Sum of the turn magnitudes above EPSILON over an index interval. -/
def turnSum (c : List Command) (a b : ℕ) : ℚ :=
  ∑ j in Finset.Ico a b, (if EPSILON < |(c.getD j default).turn| then |(c.getD j default).turn| else 0)

/-- Sum of the 1/2 offset readings over an index interval. -/
def twHalfSum (c : List Command) (a b : ℕ) : ℚ :=
  ∑ j in Finset.Ico a b, (if ¬ |(c.getD j default).turn| < EPSILON then (1 / 2 : ℚ) else 0)

/-- Field-by-field description of one budget loop iteration. -/
theorem budgetBody_fields (config : Config) (len i : ℕ) (st : BState) :
    (budgetBody config len i st).velocity =
      st.velocity + |((st.cmds.getD i default).ticks : ℚ)| +
        (if i = len - 2 then |((st.cmds.getD (i + 1) default).ticks : ℚ)| else 0) ∧
    (budgetBody config len i st).vtime =
      st.vtime - config.straight_accel_time * 2 -
        (if EPSILON < |(st.cmds.getD (i + 1) default).turn| then
          2 * config.turn_accel_time else 0) -
        (if i = len - 2 then config.straight_accel_time * 2 else 0) ∧
    (budgetBody config len i st).velocity_twoff =
      st.velocity_twoff + |(st.cmds.getD i default).tw_off| +
        (if EPSILON < |(st.cmds.getD (i + 1) default).turn| then
          |(st.cmds.getD (i + 1) default).turn| else 0) +
        (if i = len - 2 then |(st.cmds.getD (i + 1) default).tw_off| else 0) ∧
    (budgetBody config len i st).cmds =
      (if |(st.cmds.getD (i + 1) default).turn| < EPSILON then st.cmds
       else updateAt (updateAt st.cmds i fun c => { c with tw_off := c.tw_off - 1 / 2 })
         (i + 1) fun c => { c with tw_off := c.tw_off - 1 / 2 }) := by
  simp only [budgetBody]
  split_ifs <;> refine ⟨?_, ?_, ?_, ?_⟩ <;> first | rfl | ring

/-- Full characterisation of the budget loop: command offsets, aggregate
velocity, remaining time and aggregate lateral offset after running the
remaining `n` iterations from index `i`. -/
theorem budgetIter_spec (config : Config) (c₀ : List Command) :
    ∀ (n i : ℕ) (st : BState),
      i + n + 1 = c₀.length →
      st.cmds.length = c₀.length →
      (∀ j, st.cmds.getD j default =
        { c₀.getD j default with tw_off := entryTw c₀ i j }) →
      (budgetIter config c₀.length n i st).cmds.length = c₀.length ∧
      (∀ j, (budgetIter config c₀.length n i st).cmds.getD j default =
        { c₀.getD j default with tw_off := entryTw c₀ (i + n) j }) ∧
      (budgetIter config c₀.length n i st).velocity =
        st.velocity + (if n = 0 then 0 else velSum c₀ i c₀.length) ∧
      (budgetIter config c₀.length n i st).vtime =
        st.vtime - (if n = 0 then 0 else ((n : ℚ) + 1) * (config.straight_accel_time * 2))
          - 2 * config.turn_accel_time * turnCount c₀ (i + 1) c₀.length ∧
      (budgetIter config c₀.length n i st).velocity_twoff =
        st.velocity_twoff + (if n = 0 then 0
          else |entryTw c₀ i i| + twHalfSum c₀ (i + 1) (c₀.length - 1) +
            turnSum c₀ (i + 1) c₀.length) := by
  intro n
  induction n with
  | zero =>
    intro i st hlen hslen hchar
    have hico : Finset.Ico (i + 1) c₀.length = ∅ := Finset.Ico_eq_empty (by omega)
    refine ⟨hslen, by simpa using hchar, by simp [budgetIter], ?_, by simp [budgetIter]⟩
    simp [budgetIter, turnCount, hico]
  | succ n ih =>
    intro i st hlen hslen hchar
    have hb := budgetBody_fields config c₀.length i st
    have hi1len : i + 1 < c₀.length := by omega
    have hilen : i < c₀.length := by omega
    have eturn : ∀ j, (st.cmds.getD j default).turn = (c₀.getD j default).turn := by
      intro j; rw [hchar j]
    have eticks : ∀ j, (st.cmds.getD j default).ticks = (c₀.getD j default).ticks := by
      intro j; rw [hchar j]
    have etw : ∀ j, (st.cmds.getD j default).tw_off = entryTw c₀ i j := by
      intro j; rw [hchar j]
    have etwi : (st.cmds.getD i default).tw_off = preTw c₀ i := by
      rw [etw i]; unfold entryTw; rw [if_neg (by omega), if_pos rfl]
    have etwi1 : (st.cmds.getD (i + 1) default).tw_off = 0 := by
      rw [etw (i + 1)]; unfold entryTw; rw [if_neg (by omega), if_neg (by omega)]
    -- the special last-iteration test is exactly n = 0
    have hspecial : (i = c₀.length - 2) ↔ n = 0 := by omega
    -- conditions for the inductive hypothesis at (n, i + 1, body st)
    set st' := budgetBody config c₀.length i st with hst'
    have hslen' : st'.cmds.length = c₀.length := by
      rw [hst', hb.2.2.2]
      split_ifs
      · exact hslen
      · rw [updateAt_length, updateAt_length]; exact hslen
    have hchar' : ∀ j, st'.cmds.getD j default =
        { c₀.getD j default with tw_off := entryTw c₀ (i + 1) j } := by
      intro j
      rw [hst', hb.2.2.2]
      by_cases hf : |(st.cmds.getD (i + 1) default).turn| < EPSILON
      · rw [if_pos hf]
        rw [eturn (i + 1)] at hf
        rw [hchar j]
        have key : entryTw c₀ i j = entryTw c₀ (i + 1) j := by
          rcases lt_trichotomy j i with hj | hj | hj
          · unfold entryTw
            rw [if_pos hj, if_pos (by omega)]
          · subst hj
            have h1 : entryTw c₀ j j = preTw c₀ j := by
              unfold entryTw; rw [if_neg (by omega), if_pos rfl]
            have h2 : entryTw c₀ (j + 1) j = finTw c₀ j := by
              unfold entryTw; rw [if_pos (by omega)]
            rw [h1, h2]
            unfold finTw
            rw [if_neg (fun hc => hc.2 hf), add_zero]
          · rcases eq_or_lt_of_le (Nat.succ_le_of_lt hj) with hj1 | hj1
            · have h1 : entryTw c₀ i j = 0 := by
                unfold entryTw; rw [if_neg (by omega), if_neg (by omega)]
              have h2 : entryTw c₀ (i + 1) j = preTw c₀ j := by
                unfold entryTw; rw [if_neg (by omega), if_pos hj1.symm]
              rw [h1, h2]
              unfold preTw
              rw [if_neg (by rw [← hj1]; exact fun hc => hc.2.2 hf)]
            · unfold entryTw
              rw [if_neg (by omega), if_neg (by omega), if_neg (by omega), if_neg (by omega)]
        rw [key]
      · rw [if_neg hf]
        rw [eturn (i + 1)] at hf
        rcases lt_trichotomy j i with hj | hj | hj
        · rw [updateAt_getD_ne _ _ _ _ (by omega), updateAt_getD_ne _ _ _ _ (by omega),
            hchar j]
          have key : entryTw c₀ i j = entryTw c₀ (i + 1) j := by
            unfold entryTw
            rw [if_pos hj, if_pos (by omega)]
          rw [key]
        · subst hj
          rw [updateAt_getD_ne _ _ _ _ (by omega),
            updateAt_getD_eq _ _ _ (by rw [hslen]; exact hilen), hchar j]
          have h2 : entryTw c₀ (j + 1) j = finTw c₀ j := by
            unfold entryTw; rw [if_pos (by omega)]
          have h1 : entryTw c₀ j j = preTw c₀ j := by
            unfold entryTw; rw [if_neg (by omega), if_pos rfl]
          rw [h1, h2]
          show ({ c₀.getD j default with tw_off := preTw c₀ j - 1 / 2 } : Command) = _
          have h3 : finTw c₀ j = preTw c₀ j - 1 / 2 := by
            unfold finTw
            rw [if_pos ⟨hi1len, hf⟩]
            ring
          rw [h3]
        · rcases eq_or_lt_of_le (Nat.succ_le_of_lt hj) with hj1 | hj1
          · rw [← hj1]
            rw [updateAt_getD_eq _ _ _ (by rw [updateAt_length, hslen]; exact hi1len),
              updateAt_getD_ne _ _ _ _ (by omega), hchar (i + 1)]
            have h1 : entryTw c₀ i (i + 1) = 0 := by
              unfold entryTw; rw [if_neg (by omega), if_neg (by omega)]
            have h2 : entryTw c₀ (i + 1) (i + 1) = preTw c₀ (i + 1) := by
              unfold entryTw; rw [if_neg (by omega), if_pos rfl]
            rw [h1, h2]
            show ({ c₀.getD (i + 1) default with tw_off := 0 - 1 / 2 } : Command) = _
            have h3 : preTw c₀ (i + 1) = 0 - 1 / 2 := by
              unfold preTw
              rw [if_pos ⟨by omega, hi1len, hf⟩]
              ring
            rw [h3]
          · rw [updateAt_getD_ne _ _ _ _ (by omega), updateAt_getD_ne _ _ _ _ (by omega),
              hchar j]
            have key : entryTw c₀ i j = entryTw c₀ (i + 1) j := by
              unfold entryTw
              rw [if_neg (by omega), if_neg (by omega), if_neg (by omega), if_neg (by omega)]
            rw [key]
    have hrec := ih (i + 1) st' (by omega) hslen' hchar'
    have hstep : budgetIter config c₀.length (n + 1) i st =
        budgetIter config c₀.length n (i + 1) st' := rfl
    have harr : i + 1 + n = i + (n + 1) := by omega
    refine ⟨by rw [hstep]; exact hrec.1, ?_, ?_, ?_, ?_⟩
    · rw [hstep, ← harr]; exact hrec.2.1
    · -- velocity
      rw [hstep, hrec.2.2.1, hb.1, eticks i, eticks (i + 1)]
      rcases Nat.eq_zero_or_pos n with rfl | hn
      · rw [if_pos (hspecial.mpr rfl), if_pos rfl, if_neg (show ¬(0 + 1 = 0) by omega)]
        have hlen2 : c₀.length = i + 2 := by omega
        rw [velSum, hlen2, Finset.sum_eq_sum_Ico_succ_bot (show i < i + 2 by omega),
          Finset.sum_eq_sum_Ico_succ_bot (show i + 1 < i + 2 by omega),
          Finset.Ico_eq_empty (show ¬ i + 1 + 1 < i + 2 by omega)]
        simp
        ring
      · rw [if_neg (show ¬(i = c₀.length - 2) by omega), if_neg (show ¬(n = 0) by omega),
          if_neg (show ¬(n + 1 = 0) by omega)]
        rw [velSum, velSum, Finset.sum_eq_sum_Ico_succ_bot (show i < c₀.length by omega)]
        ring
    · -- vtime
      rw [hstep, hrec.2.2.2.1, hb.2.1, eturn (i + 1)]
      have hsplit : turnCount c₀ (i + 1) c₀.length =
          (if EPSILON < |(c₀.getD (i + 1) default).turn| then (1 : ℚ) else 0) +
            turnCount c₀ (i + 1 + 1) c₀.length := by
        rw [turnCount, turnCount, Finset.sum_eq_sum_Ico_succ_bot hi1len]
      rw [hsplit]
      have hind : (if EPSILON < |(c₀.getD (i + 1) default).turn| then
          2 * config.turn_accel_time else 0) =
          2 * config.turn_accel_time *
            (if EPSILON < |(c₀.getD (i + 1) default).turn| then (1 : ℚ) else 0) := by
        split_ifs <;> ring
      rw [hind]
      rcases Nat.eq_zero_or_pos n with rfl | hn
      · rw [if_pos rfl, if_pos (hspecial.mpr rfl), if_neg (show ¬(0 + 1 = 0) by omega)]
        have hzero : turnCount c₀ (i + 1 + 1) c₀.length = 0 := by
          rw [turnCount, Finset.Ico_eq_empty (show ¬ i + 1 + 1 < c₀.length by omega)]
          simp
        rw [hzero]
        push_cast
        ring
      · rw [if_neg (show ¬(n = 0) by omega), if_neg (show ¬(i = c₀.length - 2) by omega),
          if_neg (show ¬(n + 1 = 0) by omega)]
        push_cast
        ring
    · -- velocity_twoff
      rw [hstep, hrec.2.2.2.2, hb.2.2.1, eturn (i + 1), etwi, etwi1]
      have he1 : entryTw c₀ (i + 1) (i + 1) = preTw c₀ (i + 1) := by
        unfold entryTw; rw [if_neg (by omega), if_pos rfl]
      have he0 : entryTw c₀ i i = preTw c₀ i := by
        unfold entryTw; rw [if_neg (by omega), if_pos rfl]
      rcases Nat.eq_zero_or_pos n with rfl | hn
      · rw [if_pos rfl, if_pos (hspecial.mpr rfl), if_neg (show ¬(0 + 1 = 0) by omega), he0]
        have h1 : twHalfSum c₀ (i + 1) (c₀.length - 1) = 0 := by
          rw [twHalfSum, Finset.Ico_eq_empty (show ¬ i + 1 < c₀.length - 1 by omega)]
          simp
        have h2 : turnSum c₀ (i + 1) c₀.length =
            (if EPSILON < |(c₀.getD (i + 1) default).turn| then
              |(c₀.getD (i + 1) default).turn| else 0) := by
          rw [turnSum, Finset.sum_eq_sum_Ico_succ_bot hi1len,
            Finset.Ico_eq_empty (show ¬ i + 1 + 1 < c₀.length by omega)]
          simp
        rw [h1, h2]
        simp
        ring
      · rw [if_neg (show ¬(n = 0) by omega), if_neg (show ¬(i = c₀.length - 2) by omega),
          if_neg (show ¬(n + 1 = 0) by omega), he0, he1]
        have h1 : twHalfSum c₀ (i + 1) (c₀.length - 1) =
            (if ¬ |(c₀.getD (i + 1) default).turn| < EPSILON then (1 / 2 : ℚ) else 0) +
              twHalfSum c₀ (i + 1 + 1) (c₀.length - 1) := by
          rw [twHalfSum, twHalfSum, Finset.sum_eq_sum_Ico_succ_bot (by omega)]
        have h2 : turnSum c₀ (i + 1) c₀.length =
            (if EPSILON < |(c₀.getD (i + 1) default).turn| then
              |(c₀.getD (i + 1) default).turn| else 0) +
              turnSum c₀ (i + 1 + 1) c₀.length := by
          rw [turnSum, turnSum, Finset.sum_eq_sum_Ico_succ_bot hi1len]
        have h3 : |preTw c₀ (i + 1)| =
            (if ¬ |(c₀.getD (i + 1) default).turn| < EPSILON then (1 / 2 : ℚ) else 0) := by
          unfold preTw
          by_cases hT : |(c₀.getD (i + 1) default).turn| < EPSILON
          · rw [if_neg (fun hc => hc.2.2 hT), if_neg (fun hn => hn hT)]
            simp
          · rw [if_pos ⟨by omega, hi1len, hT⟩, if_pos hT]
            norm_num
        rw [h1, h2, h3]
        ring
/-- Every command the emission pass produces has a zero offset field. -/
theorem planTokens_tw_mem (config : Config) :
    ∀ (ts : List Token) (a : ℚ) (c : Command),
      c ∈ (planTokens config ts a).1 → c.tw_off = 0 := by
  intro ts
  induction ts with
  | nil => intro a c h; simp [planTokens] at h
  | cons t rest ih =>
    intro a c h
    rcases List.mem_cons.mp h with rfl | h
    · rfl
    · exact ih _ c h

/-- The emission pass produces one command per token. -/
theorem planTokens_length (config : Config) :
    ∀ (ts : List Token) (a : ℚ), (planTokens config ts a).1.length = ts.length := by
  intro ts
  induction ts with
  | nil => intro a; rfl
  | cons t rest ih => intro a; simp [planTokens, ih]

/-- The index found by the backward scan is in range. -/
theorem findLastTurnIdx_lt : ∀ (l : List Command) (i : ℕ),
    findLastTurnIdx l = some i → i < l.length := by
  intro l
  induction l with
  | nil => intro i h; simp [findLastTurnIdx] at h
  | cons c rest ih =>
    intro i h
    rw [findLastTurnIdx] at h
    cases hr : findLastTurnIdx rest with
    | some k =>
      rw [hr] at h
      injection h with h
      subst h
      have := ih k hr
      simp
      omega
    | none =>
      rw [hr] at h
      split_ifs at h
      · injection h with h; subst h; simp
  
/-- The correction pass keeps every offset field at zero. -/
theorem correctPhase_tw_mem (config : Config) (tokens : List Token)
    (cmds0 : List Command) (angle0 : ℚ)
    (h0 : ∀ c ∈ cmds0, c.tw_off = 0) :
    ∀ c ∈ (correctPhase config tokens cmds0 angle0).1, c.tw_off = 0 := by
  intro c hc
  simp only [correctPhase] at hc
  split_ifs at hc with hediff
  · cases hfi : findLastTurnIdx cmds0 with
    | none => rw [hfi] at hc; exact h0 c hc
    | some i =>
      rw [hfi] at hc
      dsimp only at hc
      cases hdr : tokens.drop i with
      | nil => rw [hdr] at hc; exact h0 c hc
      | cons tj rest =>
        rw [hdr] at hc
        dsimp only at hc
        rcases List.mem_append.mp hc with hc | hc
        · exact h0 c (List.mem_of_mem_take hc)
        · rcases List.mem_cons.mp hc with rfl | hc
          · rfl
          · exact planTokens_tw_mem config rest _ c hc
  · exact h0 c hc

/-- The correction pass preserves the number of commands. -/
theorem correctPhase_length (config : Config) (tokens : List Token)
    (cmds0 : List Command) (angle0 : ℚ) (hlen : cmds0.length = tokens.length) :
    (correctPhase config tokens cmds0 angle0).1.length = cmds0.length := by
  simp only [correctPhase]
  split_ifs with hediff
  · cases hfi : findLastTurnIdx cmds0 with
    | none => rfl
    | some i =>
      dsimp only
      cases hdr : tokens.drop i with
      | nil => rfl
      | cons tj rest =>
        dsimp only
        have hi : i < cmds0.length := findLastTurnIdx_lt cmds0 i hfi
        have hdl : (tokens.drop i).length = tokens.length - i := List.length_drop i tokens
        rw [hdr] at hdl
        simp only [List.length_append, List.length_take, List.length_cons,
          planTokens_length]
        simp at hdl
        omega
  · rfl

/-- A command list whose members all have zero offset reads zero offsets
through `getD`. -/
theorem getD_tw_zero {l : List Command} (h : ∀ c ∈ l, c.tw_off = 0) (j : ℕ) :
    (l.getD j default).tw_off = 0 := by
  by_cases hj : j < l.length
  · rw [List.getD_eq_getElem l default hj]
    exact h _ (List.getElem_mem hj)
  · rw [List.getD_eq_default l default (by omega)]
    rfl

/-- Restoring a zero offset field is the identity. -/
theorem cmd_tw_eta (x : Command) (h : x.tw_off = 0) :
    ({ x with tw_off := (0 : ℚ) } : Command) = x := by
  cases x
  simp_all

/-- At the final loop index the entry offsets coincide with the final
offsets. -/
theorem entryTw_last (c₀ : List Command) (j : ℕ) (h : 1 ≤ c₀.length) :
    entryTw c₀ (c₀.length - 1) j = finTw c₀ j := by
  by_cases h1 : j < c₀.length - 1
  · unfold entryTw
    rw [if_pos h1]
  · by_cases h2 : j = c₀.length - 1
    · unfold entryTw
      rw [if_neg h1, if_pos h2]
      unfold finTw
      rw [if_neg (fun hc => absurd hc.1 (by omega))]
      ring
    · unfold entryTw
      rw [if_neg h1, if_neg h2]
      unfold finTw preTw
      rw [if_neg (fun hc => absurd hc.2.1 (by omega)),
        if_neg (fun hc => absurd hc.1 (by omega))]
      norm_num

/-- Before the first budget iteration no offset has been written. -/
theorem entryTw_zero (c₀ : List Command) (j : ℕ) : entryTw c₀ 0 j = 0 := by
  unfold entryTw
  rw [if_neg (by omega)]
  split_ifs with h
  · subst h
    unfold preTw
    rw [if_neg (fun hc => absurd hc.1 (by omega))]
  · rfl

/-- Summary of an accepted plan: its command list and the three aggregate
fields, expressed through the pre-budget command list `c₀`. -/
theorem plan_budget_summary {lines : List String} {config : Config}
    (hok : (plan lines config).isOk = true) :
    ∃ c₀ : List Command,
      1 ≤ c₀.length ∧
      (plan lines config).commandsD.length = c₀.length ∧
      (∀ j, (plan lines config).commandsD.getD j default =
        { c₀.getD j default with tw_off := finTw c₀ j }) ∧
      (plan lines config).configD.velocity =
        (if c₀.length - 1 = 0 then 0 else velSum c₀ 0 c₀.length) ∧
      (plan lines config).configD.vtime =
        (plan lines config).configD.time -
          (if c₀.length - 1 = 0 then 0
           else ((c₀.length - 1 : ℕ) + 1 : ℚ) * (config.straight_accel_time * 2)) -
          2 * config.turn_accel_time * turnCount c₀ 1 c₀.length ∧
      (plan lines config).configD.velocity_twoff =
        twHalfSum c₀ 1 (c₀.length - 1) + turnSum c₀ 1 c₀.length := by
  cases hp : parseLines lines [] 0 with
  | none => rw [plan, hp] at hok; simp [PlanOutcome.isOk] at hok
  | some pr =>
    obtain ⟨toks, time⟩ := pr
    obtain ⟨htime, heq⟩ := plan_ok hp hok
    rw [heq] at hok ⊢
    cases hout : planFromTokens toks time config with
    | panic => rw [hout] at hok; simp [PlanOutcome.isOk] at hok
    | error e => rw [hout] at hok; simp [PlanOutcome.isOk] at hok
    | ok r =>
      obtain ⟨t0, ts, rfl, _, hcmds, hvel, hvtw, hvt, htm, -⟩ := planFromTokens_ok hout
      set c₀ : List Command := (correctPhase config (t0 :: ts)
        (planTokens config (t0 :: ts) t0.target_angle).1
        (planTokens config (t0 :: ts) t0.target_angle).2).1 with hc₀
      have hlen0 : (planTokens config (t0 :: ts) t0.target_angle).1.length =
          (t0 :: ts).length := planTokens_length config (t0 :: ts) t0.target_angle
      have hlenc : c₀.length = (t0 :: ts).length := by
        rw [hc₀, correctPhase_length config (t0 :: ts) _ _ hlen0, hlen0]
      have hge1 : 1 ≤ c₀.length := by rw [hlenc]; simp
      have htwz : ∀ c ∈ c₀, c.tw_off = 0 := by
        rw [hc₀]
        exact correctPhase_tw_mem config (t0 :: ts) _ _
          (planTokens_tw_mem config (t0 :: ts) t0.target_angle)
      have hchar : ∀ j, c₀.getD j default =
          { c₀.getD j default with tw_off := entryTw c₀ 0 j } := by
        intro j
        rw [entryTw_zero]
        exact (cmd_tw_eta _ (getD_tw_zero htwz j)).symm
      have hspec := budgetIter_spec config c₀ (c₀.length - 1) 0 ⟨c₀, 0, 0, time⟩
        (by omega) rfl hchar
      have hbp : budgetPhase config c₀ time =
          budgetIter config c₀.length (c₀.length - 1) 0 ⟨c₀, 0, 0, time⟩ := rfl
      refine ⟨c₀, hge1, ?_, ?_, ?_, ?_, ?_⟩
      · show r.commands.length = c₀.length
        rw [hcmds, hbp]
        exact hspec.1
      · intro j
        show r.commands.getD j default = _
        rw [hcmds, hbp]
        rw [hspec.2.1 j]
        rw [show 0 + (c₀.length - 1) = c₀.length - 1 by omega, entryTw_last c₀ j hge1]
      · show r.config.velocity = _
        rw [hvel, hbp, hspec.2.2.1]
        simp
      · show r.config.vtime = r.config.time - _ - _
        rw [hvt, htm, hbp, hspec.2.2.2.1]
      · show r.config.velocity_twoff = _
        rw [hvtw, hbp, hspec.2.2.2.2]
        have hez : entryTw c₀ 0 0 = 0 := entryTw_zero c₀ 0
        rw [hez]
        rcases Nat.eq_zero_or_pos (c₀.length - 1) with hz | hpos
        · rw [if_pos hz]
          have h1 : twHalfSum c₀ 1 (c₀.length - 1) = 0 := by
            rw [twHalfSum, Finset.Ico_eq_empty (by omega)]
            simp
          have h2 : turnSum c₀ 1 c₀.length = 0 := by
            rw [turnSum, Finset.Ico_eq_empty (by omega)]
            simp
          rw [h1, h2]
        · rw [if_neg (by omega)]
          simp
/-- Budget mutations change only the offset field, so turn-based and
tick-based aggregates can be read off the final command list. -/
theorem transfer_sums {d c₀ : List Command}
    (hlen : d.length = c₀.length)
    (hchar : ∀ j, d.getD j default = { c₀.getD j default with tw_off := finTw c₀ j }) :
    (∀ a b, turnCount d a b = turnCount c₀ a b) ∧
    (∀ a b, turnSum d a b = turnSum c₀ a b) ∧
    (∀ a b, twHalfSum d a b = twHalfSum c₀ a b) ∧
    (∀ a b, velSum d a b = velSum c₀ a b) ∧
    (∀ j, finTw d j = finTw c₀ j) := by
  have hturn : ∀ j, (d.getD j default).turn = (c₀.getD j default).turn := by
    intro j; rw [hchar j]
  have hticks : ∀ j, (d.getD j default).ticks = (c₀.getD j default).ticks := by
    intro j; rw [hchar j]
  refine ⟨?_, ?_, ?_, ?_, ?_⟩
  · intro a b
    exact Finset.sum_congr rfl fun j _ => by rw [hturn j]
  · intro a b
    exact Finset.sum_congr rfl fun j _ => by rw [hturn j]
  · intro a b
    exact Finset.sum_congr rfl fun j _ => by rw [hturn j]
  · intro a b
    exact Finset.sum_congr rfl fun j _ => by rw [hticks j]
  · intro j
    unfold finTw preTw
    rw [hlen, hturn j, hturn (j + 1)]

/-- C4, amended: for every accepted plan with at least two commands, the
remaining time budget equals the user-specified total time minus
2 × straight_accel_time for every command and minus 2 × turn_accel_time for
every command after the first with a non-zero turn (the first command's
turn is never counted — it is always zero), and the aggregate velocity
equals the sum of the absolute tick distances of all commands.  For a plan
of exactly one command the budget loop does not run: the remaining time is
the full user time and the aggregate velocity is 0. -/
theorem c4_budget_amended :
    ∀ (lines : List String) (config : Config),
      (plan lines config).isOk = true →
      (2 ≤ (plan lines config).commandsD.length →
        (plan lines config).configD.vtime =
          (plan lines config).configD.time -
            ((plan lines config).commandsD.length : ℚ) * (config.straight_accel_time * 2) -
            2 * config.turn_accel_time *
              turnCount (plan lines config).commandsD 1 (plan lines config).commandsD.length ∧
        (plan lines config).configD.velocity =
          velSum (plan lines config).commandsD 0 (plan lines config).commandsD.length) ∧
      ((plan lines config).commandsD.length = 1 →
        (plan lines config).configD.vtime = (plan lines config).configD.time ∧
        (plan lines config).configD.velocity = 0) := by
  intro lines config hok
  obtain ⟨c₀, hge1, hlen, hchar, hvel, hvt, hvtw⟩ := plan_budget_summary hok
  obtain ⟨hcount, hsum, hhalf, hvels, hfin⟩ := transfer_sums hlen hchar
  constructor
  · intro h2
    rw [hlen] at h2 ⊢
    constructor
    · rw [hvt, if_neg (by omega), hcount]
      have : (((c₀.length - 1 : ℕ) : ℚ) + 1) = (c₀.length : ℚ) := by
        have : ((c₀.length - 1 : ℕ) : ℚ) = (c₀.length : ℚ) - 1 := by
          push_cast [Nat.cast_sub (by omega : 1 ≤ c₀.length)]
          ring
        rw [this]
        ring
      rw [this]
    · rw [hvel, if_neg (by omega), hvels]
  · intro h1
    rw [hlen] at h1
    refine ⟨?_, ?_⟩
    · rw [hvt, if_pos (by omega)]
      have : turnCount c₀ 1 c₀.length = 0 := by
        rw [turnCount, Finset.Ico_eq_empty (by omega)]
        simp
      rw [this]
      ring
    · rw [hvel, if_pos (by omega)]

/-- Witness for C4 at the accepted two-command plan `right 10 / up 10 /
time 5`. -/
theorem c4_budget_amended_witness :
    (2 ≤ (plan ["right 10", "up 10", "time 5"] defaultConfig).commandsD.length →
      (plan ["right 10", "up 10", "time 5"] defaultConfig).configD.vtime =
        (plan ["right 10", "up 10", "time 5"] defaultConfig).configD.time -
          ((plan ["right 10", "up 10", "time 5"] defaultConfig).commandsD.length : ℚ) *
            (defaultConfig.straight_accel_time * 2) -
          2 * defaultConfig.turn_accel_time *
            turnCount (plan ["right 10", "up 10", "time 5"] defaultConfig).commandsD 1
              (plan ["right 10", "up 10", "time 5"] defaultConfig).commandsD.length ∧
      (plan ["right 10", "up 10", "time 5"] defaultConfig).configD.velocity =
        velSum (plan ["right 10", "up 10", "time 5"] defaultConfig).commandsD 0
          (plan ["right 10", "up 10", "time 5"] defaultConfig).commandsD.length) ∧
    ((plan ["right 10", "up 10", "time 5"] defaultConfig).commandsD.length = 1 →
      (plan ["right 10", "up 10", "time 5"] defaultConfig).configD.vtime =
        (plan ["right 10", "up 10", "time 5"] defaultConfig).configD.time ∧
      (plan ["right 10", "up 10", "time 5"] defaultConfig).configD.velocity = 0) :=
  c4_budget_amended ["right 10", "up 10", "time 5"] defaultConfig
    (by with_unfolding_all rfl)

/-- C5, amended: for every accepted plan, each command's final track-width
offset is −0.5 when its own turn is non-zero (and it is not the first
command) plus −0.5 when its successor's turn is non-zero — the claim's
pairwise decrement; but the aggregate lateral offset field equals 0.5 per
*interior* command whose own turn is non-zero plus the magnitude of every
non-zero turn after the first command: the loop reads each offset before
its own decrements reach it, so the claimed "sum of absolute per-command
offsets" is not what is accumulated. -/
theorem c5_twoff_amended :
    ∀ (lines : List String) (config : Config),
      (plan lines config).isOk = true →
      (∀ j, ((plan lines config).commandsD.getD j default).tw_off =
        finTw (plan lines config).commandsD j) ∧
      (plan lines config).configD.velocity_twoff =
        twHalfSum (plan lines config).commandsD 1
            ((plan lines config).commandsD.length - 1) +
          turnSum (plan lines config).commandsD 1
            (plan lines config).commandsD.length := by
  intro lines config hok
  obtain ⟨c₀, hge1, hlen, hchar, hvel, hvt, hvtw⟩ := plan_budget_summary hok
  obtain ⟨hcount, hsum, hhalf, hvels, hfin⟩ := transfer_sums hlen hchar
  constructor
  · intro j
    rw [hchar j, hfin j]
  · rw [hvtw, hlen, hhalf, hsum]

/-- Witness for C5 at the accepted plan `right 10 / up 10 / time 5`. -/
theorem c5_twoff_amended_witness :
    (∀ j, ((plan ["right 10", "up 10", "time 5"] defaultConfig).commandsD.getD j
        default).tw_off =
      finTw (plan ["right 10", "up 10", "time 5"] defaultConfig).commandsD j) ∧
    (plan ["right 10", "up 10", "time 5"] defaultConfig).configD.velocity_twoff =
      twHalfSum (plan ["right 10", "up 10", "time 5"] defaultConfig).commandsD 1
          ((plan ["right 10", "up 10", "time 5"] defaultConfig).commandsD.length - 1) +
        turnSum (plan ["right 10", "up 10", "time 5"] defaultConfig).commandsD 1
          (plan ["right 10", "up 10", "time 5"] defaultConfig).commandsD.length :=
  c5_twoff_amended ["right 10", "up 10", "time 5"] defaultConfig
    (by with_unfolding_all rfl)

end Rotour
